import Mathlib

/-!
Verification of the music-storage-manager core (src/app.py) against its
natural-language specification.

The embedding is character-level: Python strings are `List Char`, file
contents are `List Char`, a possibly-missing file is `Option (List Char)`.
Python text-mode reads translate `\r\n` and `\r` to `\n` (universal
newlines); `univNewlines` models that translation.
-/

namespace MSM

/-- Python ASCII whitespace, as stripped by `str.strip()`. -/
def pyIsSpace (c : Char) : Bool :=
  c = ' ' || c = '\t' || c = '\n' || c = '\r' || c = '\x0b' || c = '\x0c'

/-- Python `str.strip()`. -/
def pyStrip (s : List Char) : List Char :=
  ((s.dropWhile pyIsSpace).reverse.dropWhile pyIsSpace).reverse

/-- Python `str.lower()` (ASCII range). -/
def pyLower (s : List Char) : List Char := s.map Char.toLower

/-- Python substring test `needle in hay`. -/
def strContains (hay needle : List Char) : Bool :=
  match hay with
  | [] => needle.isEmpty
  | c :: t => needle.isPrefixOf (c :: t) || strContains t needle

/-- Universal-newline translation performed by opening a file in text mode:
`\r\n` and a lone `\r` both become `\n`. -/
def univNewlines : List Char → List Char
  | [] => []
  | '\r' :: '\n' :: rest => '\n' :: univNewlines rest
  | '\r' :: rest => '\n' :: univNewlines rest
  | c :: rest => c :: univNewlines rest

/-- A storage rule as loaded by `RulesManager.load_rules` (src/app.py:205):
the four pipe-delimited fields plus the 1-based position of the record. -/
structure Rule where
  line : Nat
  source : List Char
  target : List Char
  subpath : List Char
  mode : List Char
  deriving DecidableEq

/-- The `(source, target, subpath, mode)` tuple of a rule — what the
round-trip property compares, line numbers excluded. -/
def Rule.tuple (r : Rule) : List Char × List Char × List Char × List Char :=
  (r.source, r.target, r.subpath, r.mode)

/-- `RulesManager._categorize_rule` (src/app.py:285-305): lower-case the
source, then an ordered `elif` chain of substring tests. -/
def categorizeRule (r : Rule) : String :=
  let source := pyLower r.source
  if strContains source ("native instruments".toList) then "Native Instruments"
  else if strContains source ("uvi".toList) then "UVI Products"
  else if strContains source ("arturia".toList) then "Arturia"
  else if strContains source ("logic".toList) then "Logic Pro"
  else if strContains source ("samples".toList) then "Sample Libraries"
  else if strContains source ("projects".toList) || strContains source ("music".toList) then
    "Projects"
  else if strContains source ("/library/application support".toList) then "System Content"
  else if strContains source ("library/application support".toList)
      || strContains source ("documents".toList) then "User Settings"
  else "Other"

/-! The specification's view of categorization: an ordered table of
(substring alternatives, category) pairs with first-match-wins. -/

/-- The ordered category table of spec §4.1. -/
def categoryTable : List (List (List Char) × String) :=
  [ (["native instruments".toList], "Native Instruments"),
    (["uvi".toList], "UVI Products"),
    (["arturia".toList], "Arturia"),
    (["logic".toList], "Logic Pro"),
    (["samples".toList], "Sample Libraries"),
    (["projects".toList, "music".toList], "Projects"),
    (["/library/application support".toList], "System Content"),
    (["library/application support".toList, "documents".toList], "User Settings") ]

/-- First-match-wins evaluation of an ordered category table. -/
def firstMatchCategory (s : List Char) : List (List (List Char) × String) → String
  | [] => "Other"
  | (needles, cat) :: rest =>
    if needles.any (fun n => strContains s n) then cat else firstMatchCategory s rest

theorem categorizeRule_eq_firstMatch (r : Rule) :
    categorizeRule r = firstMatchCategory (pyLower r.source) categoryTable := by
  simp only [categorizeRule, categoryTable, firstMatchCategory, List.any_cons, List.any_nil,
    Bool.or_false]

/-- Claim C1: `categorize` is a pure, case-insensitive substring match over
`rule.source`, evaluated as an ordered list with first-match-wins semantics.
As amended: `source="/Library/Application Support/X"` yields System Content,
`source="~/Library/Application Support/X"` yields **System Content** (the
lowered source contains the substring `/library/application support`, so the
earlier branch fires), `source=".../Documents/foo"` yields User Settings, and
`source="Native Instruments/Kontakt"` yields Native Instruments. -/
theorem c1_categorize_first_match :
    (∀ r : Rule, categorizeRule r = firstMatchCategory (pyLower r.source) categoryTable) ∧
    (∀ r r' : Rule, pyLower r.source = pyLower r'.source →
      categorizeRule r = categorizeRule r') ∧
    categorizeRule ⟨0, "/Library/Application Support/X".toList, [], [], []⟩ = "System Content" ∧
    categorizeRule ⟨0, "~/Library/Application Support/X".toList, [], [], []⟩ = "System Content" ∧
    categorizeRule ⟨0, ".../Documents/foo".toList, [], [], []⟩ = "User Settings" ∧
    categorizeRule ⟨0, "Native Instruments/Kontakt".toList, [], [], []⟩ = "Native Instruments" := by
  refine ⟨categorizeRule_eq_firstMatch, ?_, by decide, by decide, by decide, by decide⟩
  intro r r' h
  rw [categorizeRule_eq_firstMatch, categorizeRule_eq_firstMatch, h]

/-- Counterexample to claim C1 as stated: the claim asserts
`source="~/Library/Application Support/X"` is categorized as User Settings,
but the code returns System Content — the lowered source contains the
substring `/library/application support` (right after the `~`), so the
System Content branch fires first. -/
theorem c1_counterexample :
    categorizeRule ⟨0, "~/Library/Application Support/X".toList, [], [], []⟩ = "System Content" ∧
    categorizeRule ⟨0, "~/Library/Application Support/X".toList, [], [], []⟩ ≠ "User Settings" := by
  constructor
  · decide
  · decide

/-! ## OperationMetrics (src/app.py:437-574)

The metrics journal is a JSON file `{operations, summary}`, read-modified-
written on every call; with a single writer this is plain state passing, so
the journal is modelled as a `Metrics` value threaded through the calls.
Python floats are modelled as rationals; `round(x, 2)` as exact
round-half-to-even at two decimal places. -/

/-- `round(q)` to an integer, half to even (Python's rounding mode). -/
def roundHalfEven (q : ℚ) : ℤ :=
  if Int.fract q < 1 / 2 then ⌊q⌋
  else if 1 / 2 < Int.fract q then ⌊q⌋ + 1
  else if ⌊q⌋ % 2 = 0 then ⌊q⌋ else ⌊q⌋ + 1

/-- Python `round(q, 2)`. -/
def round2 (q : ℚ) : ℚ := (roundHalfEven (q * 100) : ℚ) / 100

/-- One detail entry of the journal. `record_operation` writes no `timeout`
key (read back as false) and `record_timeout` writes no `dry_run` key
(modelled as `none`); timestamps are not modelled. -/
structure Operation where
  command : List Char
  returncode : ℤ
  duration : Option ℚ
  success : Bool
  timeout : Bool
  dryRun : Option Bool
  deriving DecidableEq

/-- The running all-time counters. -/
structure Summary where
  total : ℕ
  success : ℕ
  failed : ℕ
  timeouts : ℕ
  deriving DecidableEq

/-- The journal state: detail list (newest first) plus summary. -/
structure Metrics where
  operations : List Operation
  summary : Summary
  deriving DecidableEq

/-- The state `OperationMetrics._ensure_metrics_file` creates
(src/app.py:444-455): empty detail list, all counters zero. -/
def initMetrics : Metrics := ⟨[], ⟨0, 0, 0, 0⟩⟩

/-- `OperationMetrics.record_operation` (src/app.py:476-500). -/
def recordOperation (m : Metrics) (command : List Char) (returncode : ℤ)
    (duration : ℚ) (dryRun : Bool) : Metrics :=
  let op : Operation :=
    { command := command, returncode := returncode, duration := some (round2 duration),
      success := returncode == 0, timeout := false, dryRun := some dryRun }
  { operations := (op :: m.operations).take 100,
    summary :=
      { total := m.summary.total + 1,
        success := if returncode == 0 then m.summary.success + 1 else m.summary.success,
        failed := if returncode == 0 then m.summary.failed else m.summary.failed + 1,
        timeouts := m.summary.timeouts } }

/-- `OperationMetrics.record_timeout` (src/app.py:502-522). -/
def recordTimeout (m : Metrics) (command : List Char) : Metrics :=
  let op : Operation :=
    { command := command, returncode := -1, duration := none,
      success := false, timeout := true, dryRun := none }
  { operations := (op :: m.operations).take 100,
    summary :=
      { total := m.summary.total + 1,
        success := m.summary.success,
        failed := m.summary.failed + 1,
        timeouts := m.summary.timeouts + 1 } }

/-- A recording call against the journal. -/
inductive Call where
  | run (command : List Char) (returncode : ℤ) (duration : ℚ) (dryRun : Bool)
  | timedOut (command : List Char)
  deriving DecidableEq

/-- Apply one call to the journal state. -/
def applyCall (m : Metrics) : Call → Metrics
  | .run c rc d dr => recordOperation m c rc d dr
  | .timedOut c => recordTimeout m c

/-- Apply a sequence of calls, oldest first. -/
def applyCalls (m : Metrics) (calls : List Call) : Metrics := calls.foldl applyCall m

/-- The detail entry a call inserts at the head of the list. -/
def Call.entry : Call → Operation
  | .run c rc d dr =>
    { command := c, returncode := rc, duration := some (round2 d),
      success := rc == 0, timeout := false, dryRun := some dr }
  | .timedOut c =>
    { command := c, returncode := -1, duration := none,
      success := false, timeout := true, dryRun := none }

theorem applyCall_operations (m : Metrics) (c : Call) :
    (applyCall m c).operations = (c.entry :: m.operations).take 100 := by
  cases c <;> rfl

theorem applyCall_total (m : Metrics) (c : Call) :
    (applyCall m c).summary.total = m.summary.total + 1 := by
  cases c <;> rfl

theorem take_append_take {α : Type} (n : ℕ) (a b : List α) :
    (a ++ b.take n).take n = (a ++ b).take n := by
  rw [List.take_append_eq_append_take, List.take_append_eq_append_take, List.take_take,
    Nat.min_eq_left (Nat.sub_le n a.length)]

/-- Journal evolution: after any call sequence the detail list is the capped,
newest-first history prepended to the initial list, and `total` counted every
call. -/
theorem applyCalls_spec (calls : List Call) : ∀ m : Metrics, m.operations.length ≤ 100 →
    (applyCalls m calls).operations
      = ((calls.map Call.entry).reverse ++ m.operations).take 100 ∧
    (applyCalls m calls).summary.total = m.summary.total + calls.length := by
  induction calls with
  | nil =>
    intro m hm
    simpa [applyCalls] using (List.take_of_length_le hm).symm
  | cons c cs ih =>
    intro m _
    have step : applyCalls m (c :: cs) = applyCalls (applyCall m c) cs := rfl
    have hlen : (applyCall m c).operations.length ≤ 100 := by
      rw [applyCall_operations, List.length_take]
      exact Nat.min_le_left _ _
    obtain ⟨h1, h2⟩ := ih (applyCall m c) hlen
    constructor
    · rw [step, h1, applyCall_operations, List.map_cons, List.reverse_cons, List.append_assoc,
        List.singleton_append, take_append_take]
    · rw [step, h2, applyCall_total, List.length_cons]
      omega

/-- Claim C4: starting from the empty journal, the detail list retains at
most 100 entries, newest first, while `summary.total` counts every call; in
particular 101 recordings leave exactly 100 detail entries and
`summary.total = 101`. -/
theorem c4_metrics_cap (calls : List Call) :
    (applyCalls initMetrics calls).summary.total = calls.length ∧
    (applyCalls initMetrics calls).operations
      = ((calls.map Call.entry).reverse).take 100 ∧
    (applyCalls initMetrics calls).operations.length = min calls.length 100 ∧
    ((applyCalls initMetrics (List.replicate 101 (Call.timedOut []))).operations.length = 100 ∧
      (applyCalls initMetrics (List.replicate 101 (Call.timedOut []))).summary.total = 101) := by
  have hinit : initMetrics.operations.length ≤ 100 := by simp [initMetrics]
  obtain ⟨h1, h2⟩ := applyCalls_spec calls initMetrics hinit
  have h1' : (applyCalls initMetrics calls).operations
      = ((calls.map Call.entry).reverse).take 100 := by
    rw [h1]; simp [initMetrics]
  obtain ⟨g1, g2⟩ := applyCalls_spec (List.replicate 101 (Call.timedOut [])) initMetrics hinit
  have g1' : (applyCalls initMetrics (List.replicate 101 (Call.timedOut []))).operations
      = (((List.replicate 101 (Call.timedOut [])).map Call.entry).reverse).take 100 := by
    rw [g1]; simp [initMetrics]
  refine ⟨by simpa [initMetrics] using h2, h1', ?_, ?_, by simpa [initMetrics] using g2⟩
  · rw [h1', List.length_take, List.length_reverse, List.length_map, Nat.min_comm]
  · rw [g1', List.length_take, List.length_reverse, List.length_map, List.length_replicate]
    exact Nat.min_eq_left (by norm_num)

/-- Claim C5: `record_timeout` inserts at the head an entry with
`returncode = -1`, `success = false`, `timeout = true` and null duration,
and bumps `total`, `timeouts` and `failed` by exactly one each, leaving
`success` unchanged. -/
theorem c5_record_timeout (m : Metrics) (command : List Char) :
    (recordTimeout m command).operations.head? =
      some { command := command, returncode := -1, duration := none,
             success := false, timeout := true, dryRun := none } ∧
    (recordTimeout m command).summary.total = m.summary.total + 1 ∧
    (recordTimeout m command).summary.timeouts = m.summary.timeouts + 1 ∧
    (recordTimeout m command).summary.failed = m.summary.failed + 1 ∧
    (recordTimeout m command).summary.success = m.summary.success :=
  ⟨rfl, rfl, rfl, rfl, rfl⟩

theorem applyCall_summary_inv (m : Metrics) (c : Call)
    (h1 : m.summary.total = m.summary.success + m.summary.failed)
    (h2 : m.summary.timeouts ≤ m.summary.failed) :
    (applyCall m c).summary.total
        = (applyCall m c).summary.success + (applyCall m c).summary.failed ∧
    (applyCall m c).summary.timeouts ≤ (applyCall m c).summary.failed := by
  cases c with
  | run cmd rc d dr =>
    simp only [applyCall, recordOperation]
    by_cases h : rc == 0 <;> simp [h] <;> omega
  | timedOut cmd =>
    simp only [applyCall, recordTimeout]
    omega

/-- Claim C10: from the all-zero initial journal, after any call sequence
`total = success + failed` and `timeouts ≤ failed`. -/
theorem c10_summary_invariant (calls : List Call) :
    (applyCalls initMetrics calls).summary.total
      = (applyCalls initMetrics calls).summary.success
        + (applyCalls initMetrics calls).summary.failed ∧
    (applyCalls initMetrics calls).summary.timeouts
      ≤ (applyCalls initMetrics calls).summary.failed := by
  suffices h : ∀ m : Metrics,
      m.summary.total = m.summary.success + m.summary.failed →
      m.summary.timeouts ≤ m.summary.failed →
      (applyCalls m calls).summary.total
        = (applyCalls m calls).summary.success + (applyCalls m calls).summary.failed ∧
      (applyCalls m calls).summary.timeouts ≤ (applyCalls m calls).summary.failed by
    exact h initMetrics rfl (Nat.le_refl 0)
  induction calls with
  | nil => exact fun m hm1 hm2 => ⟨hm1, hm2⟩
  | cons c cs ih =>
    intro m hm1 hm2
    obtain ⟨g1, g2⟩ := applyCall_summary_inv m c hm1 hm2
    exact ih (applyCall m c) g1 g2

/-! ## Dashboard average duration (src/app.py:550-551, 572) -/

/-- The `durations` / `avg_duration` computation of
`OperationMetrics.get_dashboard_stats`: the comprehension
`[op['duration'] for op in operations if op.get('duration')]` keeps entries
whose duration is *truthy* — present and non-zero — and the mean is rounded
to two decimals (`0` when no entry qualifies). -/
def dashboardAvgDuration (m : Metrics) : ℚ :=
  let durations := m.operations.filterMap (fun op =>
    match op.duration with
    | some d => if d = 0 then none else some d
    | none => none)
  round2 (if durations = [] then 0 else durations.sum / durations.length)

/-- The claim's reading of `avgDuration`: the mean over exactly the entries
with a non-null duration. -/
def specAvgNonNull (m : Metrics) : ℚ :=
  let durations := m.operations.filterMap (fun op => op.duration)
  round2 (if durations = [] then 0 else durations.sum / durations.length)

/-- The amended reading: the mean over the entries with a non-null,
non-zero duration. -/
def specAvgNonNullNonZero (m : Metrics) : ℚ :=
  let durations :=
    (m.operations.filterMap (fun op => op.duration)).filter (fun d => !decide (d = 0))
  round2 (if durations = [] then 0 else durations.sum / durations.length)

theorem durations_filter_eq (ops : List Operation) :
    (ops.filterMap (fun op => op.duration)).filter (fun d => !decide (d = 0))
      = ops.filterMap (fun op =>
          match op.duration with
          | some d => if d = 0 then none else some d
          | none => none) := by
  induction ops with
  | nil => rfl
  | cons op t ih =>
    cases h : op.duration with
    | none => simp only [List.filterMap_cons, h]; exact ih
    | some d =>
      by_cases hd : d = 0
      · simp [List.filterMap_cons, h, hd, ih]
      · simp [List.filterMap_cons, h, hd, List.filter_cons, ih]

/-- Claim C9 as amended: `avg_duration` is the (rounded) mean over exactly
those retained detail entries whose duration is non-null **and non-zero** —
the Python truthiness test `op.get('duration')` also drops a recorded
duration of `0.0`. -/
theorem c9_avg_duration (m : Metrics) :
    dashboardAvgDuration m = specAvgNonNullNonZero m := by
  unfold dashboardAvgDuration specAvgNonNullNonZero
  rw [durations_filter_eq]

/-- A journal whose two retained entries have durations `0` and `4`. -/
def c9Metrics : Metrics :=
  ⟨[ { command := [], returncode := 0, duration := some 0,
       success := true, timeout := false, dryRun := some true },
     { command := [], returncode := 0, duration := some 4,
       success := true, timeout := false, dryRun := some true } ], ⟨2, 2, 0, 0⟩⟩

/-- Counterexample to claim C9 as stated: with retained durations `0` and
`4` the code averages only the truthy ones and reports `4`, while the mean
over all non-null durations would be `2`. -/
theorem roundHalfEven_intCast (n : ℤ) : roundHalfEven (n : ℚ) = n := by
  simp [roundHalfEven, Int.fract_intCast]

theorem round2_intCast (n : ℤ) : round2 (n : ℚ) = n := by
  unfold round2
  have h : ((n : ℚ)) * 100 = ((n * 100 : ℤ) : ℚ) := by push_cast; ring
  rw [h, roundHalfEven_intCast]
  push_cast
  field_simp

theorem c9_counterexample :
    dashboardAvgDuration c9Metrics = 4 ∧ specAvgNonNull c9Metrics = 2 ∧ (4 : ℚ) ≠ 2 := by
  refine ⟨?_, ?_, by norm_num⟩
  · simp only [dashboardAvgDuration, c9Metrics, List.filterMap_cons, List.filterMap_nil]
    norm_num
    exact_mod_cast round2_intCast 4
  · simp only [specAvgNonNull, c9Metrics, List.filterMap_cons, List.filterMap_nil]
    norm_num
    rw [if_neg (by simp)]
    exact_mod_cast round2_intCast 2

/-! ## The CSV reader (`csv.reader(f, delimiter='|')`, src/app.py:214)

Default dialect: delimiter `|`, quote character `"`, doubled quotes inside a
quoted field, non-strict. The reader consumes text-mode (universal-newline)
content, so the only terminator it sees is `\n`; a quoted field may span
terminators, in which case one record covers several physical lines. It is
modelled as a character-driven state machine over the whole content. -/

/-- The reader states (CPython `_csv.c`, escape states omitted: no escape
character in the default dialect). -/
inductive CsvState where
  | startRecord
  | startField
  | inField
  | inQuoted
  | quoteInQuoted
  deriving DecidableEq

/-- One run of the CSV state machine: current state, remaining input,
accumulated current field, accumulated fields of the current record. -/
def csvRun : CsvState → List Char → List Char → List (List Char) → List (List (List Char))
  | .startRecord, [], _, _ => []
  | .startField, [], fld, rec => [rec ++ [fld]]
  | .inField, [], fld, rec => [rec ++ [fld]]
  | .inQuoted, [], fld, rec => [rec ++ [fld]]
  | .quoteInQuoted, [], fld, rec => [rec ++ [fld]]
  | .startRecord, c :: cs, fld, rec =>
    if c = '\n' then [] :: csvRun .startRecord cs [] []
    else if c = '"' then csvRun .inQuoted cs fld rec
    else if c = '|' then csvRun .startField cs [] (rec ++ [fld])
    else csvRun .inField cs (fld ++ [c]) rec
  | .startField, c :: cs, fld, rec =>
    if c = '\n' then (rec ++ [fld]) :: csvRun .startRecord cs [] []
    else if c = '"' then csvRun .inQuoted cs fld rec
    else if c = '|' then csvRun .startField cs [] (rec ++ [fld])
    else csvRun .inField cs (fld ++ [c]) rec
  | .inField, c :: cs, fld, rec =>
    if c = '\n' then (rec ++ [fld]) :: csvRun .startRecord cs [] []
    else if c = '|' then csvRun .startField cs [] (rec ++ [fld])
    else csvRun .inField cs (fld ++ [c]) rec
  | .inQuoted, c :: cs, fld, rec =>
    if c = '"' then csvRun .quoteInQuoted cs fld rec
    else csvRun .inQuoted cs (fld ++ [c]) rec
  | .quoteInQuoted, c :: cs, fld, rec =>
    if c = '"' then csvRun .inQuoted cs (fld ++ [c]) rec
    else if c = '|' then csvRun .startField cs [] (rec ++ [fld])
    else if c = '\n' then (rec ++ [fld]) :: csvRun .startRecord cs [] []
    else csvRun .inField cs (fld ++ [c]) rec

/-- The records `csv.reader` yields on the given text-mode content. -/
def csvParse (content : List Char) : List (List (List Char)) :=
  csvRun .startRecord content [] []

/-- The per-record body of the loop in `RulesManager.load_rules`
(src/app.py:215-234): skip empty records, records whose stripped first field
is empty or starts with `#`; four or more fields make an explicit-mode rule,
exactly three make a legacy rule with mode `move`, fewer are ignored. -/
def parseRecord (i : Nat) (row : List (List Char)) : Option Rule :=
  match row with
  | [] => none
  | f0 :: rest =>
    if (pyStrip f0).head? = some '#' || (pyStrip f0).isEmpty then none
    else
      match rest with
      | b :: c :: d :: _ => some ⟨i, pyStrip f0, pyStrip b, pyStrip c, pyStrip d⟩
      | [b, c] => some ⟨i, pyStrip f0, pyStrip b, pyStrip c, "move".toList⟩
      | _ => none

/-- `RulesManager.load_rules` (src/app.py:205-239): a missing file yields an
empty list; otherwise the records of the text-mode content are enumerated
1-based and parsed by `parseRecord`. -/
def loadRules (content : Option (List Char)) : List Rule :=
  match content with
  | none => []
  | some c =>
    ((csvParse (univNewlines c)).enum).filterMap (fun p => parseRecord (p.1 + 1) p.2)

/-! The specification's view of parsing: split physical lines, then split
each line on the pipe character. -/

/-- Split on a separator character, keeping empty parts
(`"a||b"` gives `["a", "", "b"]`). -/
def splitOnChar (sep : Char) : List Char → List (List Char)
  | [] => [[]]
  | c :: cs =>
    if c = sep then [] :: splitOnChar sep cs
    else
      match splitOnChar sep cs with
      | [] => [[c]]
      | f :: rest => (c :: f) :: rest

/-- The physical lines of a text (terminators removed, no empty line after a
trailing terminator) — the spec's "line" notion. -/
def specLines : List Char → List (List Char)
  | [] => []
  | c :: cs =>
    if c = '\n' then [] :: specLines cs
    else
      match specLines cs with
      | [] => [[c]]
      | l :: ls => (c :: l) :: ls

/-- The spec's field split of one line: a blank line has no fields, any
other line splits on `|`. -/
def specFields (line : List Char) : List (List Char) :=
  if line.isEmpty then [] else splitOnChar '|' line

/-- Loading as claim C6 words it: split every line on the pipe character and
apply the field-count policy. -/
def specLoadSplit (c : List Char) : List Rule :=
  (((specLines (univNewlines c)).map specFields).enum).filterMap
    (fun p => parseRecord (p.1 + 1) p.2)

theorem splitOnChar_ne_nil (sep : Char) (l : List Char) : splitOnChar sep l ≠ [] := by
  cases l with
  | nil => simp [splitOnChar]
  | cons c cs =>
    simp only [splitOnChar]
    by_cases h : c = sep
    · simp [h]
    · simp only [h, if_false]
      cases splitOnChar sep cs <;> simp

theorem specLines_ne_nil (c : Char) (cs : List Char) : specLines (c :: cs) ≠ [] := by
  simp only [specLines]
  by_cases h : c = '\n'
  · simp [h]
  · simp only [h, if_false]
    cases specLines cs <;> simp

/-- Prepend pending field content onto the first field of a split. -/
def prependFirst (fld : List Char) : List (List Char) → List (List Char)
  | [] => [fld]
  | f :: fs => (fld ++ f) :: fs

/-- What the machine, resumed inside an unquoted field with `fld` pending and
`rec` completed fields, produces on quote-free remaining input. -/
def inFieldSpec (fld : List Char) (rec : List (List Char)) (cs : List Char) :
    List (List (List Char)) :=
  match specLines cs with
  | [] => [rec ++ [fld]]
  | l :: ls => (rec ++ prependFirst fld (splitOnChar '|' l)) :: ls.map specFields

theorem prependFirst_nil_eq (l : List Char) (sep : Char) :
    prependFirst [] (splitOnChar sep l) = splitOnChar sep l := by
  cases h : splitOnChar sep l with
  | nil => exact absurd h (splitOnChar_ne_nil sep l)
  | cons f fs => simp [prependFirst]

/-- Without quotes `startField` and `inField` behave identically. -/
theorem csvRun_startField_eq (cs : List Char) (fld : List Char) (rec : List (List Char))
    (h : ('"' : Char) ∉ cs) :
    csvRun .startField cs fld rec = csvRun .inField cs fld rec := by
  cases cs with
  | nil => rfl
  | cons c t =>
    have hc : c ≠ '"' := fun e => h (e ▸ List.mem_cons_self c t)
    simp only [csvRun]
    by_cases h1 : c = '\n'
    · simp [h1]
    · simp only [h1, if_false, hc, if_false]

theorem specLines_cons_newline (cs : List Char) :
    specLines ('\n' :: cs) = [] :: specLines cs := by
  simp [specLines]

theorem specLines_cons_other (c : Char) (cs : List Char) (h : c ≠ '\n') :
    specLines (c :: cs)
      = match specLines cs with
        | [] => [[c]]
        | l :: ls => (c :: l) :: ls := by
  simp [specLines, h]

theorem splitOnChar_cons_sep (sep : Char) (cs : List Char) :
    splitOnChar sep (sep :: cs) = [] :: splitOnChar sep cs := by
  simp [splitOnChar]

theorem splitOnChar_cons_other (sep c : Char) (cs : List Char) (h : c ≠ sep) :
    splitOnChar sep (c :: cs)
      = match splitOnChar sep cs with
        | [] => [[c]]
        | f :: fs => (c :: f) :: fs := by
  simp [splitOnChar, h]

/-- On quote-free input the machine is plain line/pipe splitting. -/
theorem csv_noquote :
    ∀ n : ℕ, ∀ cs : List Char, cs.length ≤ n → ('"' : Char) ∉ cs →
      (csvRun .startRecord cs [] [] = (specLines cs).map specFields ∧
       ∀ fld rec, csvRun .inField cs fld rec = inFieldSpec fld rec cs) := by
  intro n
  induction n with
  | zero =>
    intro cs hlen _
    have hnil : cs = [] := List.eq_nil_of_length_eq_zero (Nat.le_zero.mp hlen)
    subst hnil
    exact ⟨rfl, fun fld rec => rfl⟩
  | succ n ih =>
    intro cs hlen hq
    cases cs with
    | nil => exact ⟨rfl, fun fld rec => rfl⟩
    | cons c t =>
      have hc : c ≠ '"' := fun e => hq (e ▸ List.mem_cons_self c t)
      have hqt : ('"' : Char) ∉ t := fun e => hq (List.mem_cons_of_mem c e)
      have hlt : t.length ≤ n := by
        have := hlen
        simp only [List.length_cons] at this
        omega
      obtain ⟨ih1, ih2⟩ := ih t hlt hqt
      have part2 : ∀ fld rec, csvRun .inField (c :: t) fld rec = inFieldSpec fld rec (c :: t) := by
        intro fld rec
        by_cases h1 : c = '\n'
        · subst h1
          simp only [csvRun, if_pos rfl, ih1]
          unfold inFieldSpec
          rw [specLines_cons_newline]
          simp [prependFirst, splitOnChar]
        · by_cases h2 : c = '|'
          · subst h2
            simp only [csvRun, if_neg (by decide : ¬('|' : Char) = '\n'), if_pos rfl]
            rw [csvRun_startField_eq t [] (rec ++ [fld]) hqt, ih2]
            unfold inFieldSpec
            rw [specLines_cons_other '|' t (by decide)]
            cases hst : specLines t with
            | nil => simp [splitOnChar_cons_sep, splitOnChar, prependFirst]
            | cons l ls =>
              cases hsp : splitOnChar '|' l with
              | nil => exact absurd hsp (splitOnChar_ne_nil '|' l)
              | cons f fs => simp [splitOnChar_cons_sep, hsp, prependFirst]
          · simp only [csvRun, if_neg h1, if_neg h2, ih2]
            unfold inFieldSpec
            rw [specLines_cons_other c t h1]
            cases hst : specLines t with
            | nil => simp [splitOnChar, h2, prependFirst]
            | cons l ls =>
              cases hsp : splitOnChar '|' l with
              | nil => exact absurd hsp (splitOnChar_ne_nil '|' l)
              | cons f fs => simp [splitOnChar_cons_other '|' c l h2, hsp, prependFirst]
      refine ⟨?_, part2⟩
      by_cases h1 : c = '\n'
      · subst h1
        simp only [csvRun, if_pos rfl, ih1]
        rw [specLines_cons_newline]
        simp [specFields]
      · have e1 : csvRun .startRecord (c :: t) [] [] = csvRun .startField (c :: t) [] [] := by
          simp only [csvRun, if_neg h1]
        rw [e1, csvRun_startField_eq (c :: t) [] [] hq, part2 [] []]
        unfold inFieldSpec
        rw [specLines_cons_other c t h1]
        cases hst : specLines t with
        | nil => simp [prependFirst_nil_eq, specFields]
        | cons l ls => simp [prependFirst_nil_eq, specFields]

/-- `csv.reader` on quote-free content is exactly: split into physical lines,
then split each line on the pipe character. -/
theorem csvParse_noquote (c : List Char) (h : ('"' : Char) ∉ c) :
    csvParse c = (specLines c).map specFields :=
  (csv_noquote c.length c (Nat.le_refl _) h).1

theorem mem_univNewlines {a : Char} (h : a ≠ '\n') :
    ∀ c : List Char, a ∈ univNewlines c → a ∈ c := by
  intro c
  induction c using univNewlines.induct with
  | case1 => simp [univNewlines]
  | case2 rest ih =>
    simp only [univNewlines, List.mem_cons]
    rintro (rfl | hm)
    · exact absurd rfl h
    · simp [ih hm]
  | case3 rest hne ih =>
    simp only [univNewlines, List.mem_cons]
    rintro (rfl | hm)
    · exact absurd rfl h
    · simp [ih hm]
  | case4 c' rest hne hne2 ih =>
    simp only [univNewlines, List.mem_cons]
    rintro (rfl | hm)
    · simp
    · simp [ih hm]

theorem univNewlines_noquote {c : List Char} (h : ('"' : Char) ∉ c) :
    ('"' : Char) ∉ univNewlines c :=
  fun hm => h (mem_univNewlines (by decide) c hm)

theorem loadRules_noquote (c : List Char) (h : ('"' : Char) ∉ c) :
    loadRules (some c) = specLoadSplit c := by
  simp only [loadRules, specLoadSplit]
  rw [csvParse_noquote (univNewlines c) (univNewlines_noquote h)]

/-- Claim C6 as amended: loading parses the file with a CSV reader
(delimiter `|`, quote character `"`); on content containing no quote
character this is exactly the claim's policy — split every non-comment,
non-blank line on the pipe character; four or more fields give a rule with
the explicit fourth field as mode, exactly three fields default the mode to
`move`, fewer are ignored. In particular `A|B|C` loads as mode `move` and
`A|B|C|copy` as mode `copy`. -/
theorem c6_parsing_policy (c : List Char) (h : ('"' : Char) ∉ c) :
    loadRules (some c) = specLoadSplit c ∧
    loadRules (some ("A|B|C".toList))
      = [⟨1, "A".toList, "B".toList, "C".toList, "move".toList⟩] ∧
    loadRules (some ("A|B|C|copy".toList))
      = [⟨1, "A".toList, "B".toList, "C".toList, "copy".toList⟩] :=
  ⟨loadRules_noquote c h, by decide, by decide⟩

/-- Witness for `c6_parsing_policy` at the quote-free content `A|B|C`. -/
theorem c6_parsing_policy_witness :
    (('"' : Char) ∉ ("A|B|C".toList)) ∧
    loadRules (some ("A|B|C".toList)) = specLoadSplit ("A|B|C".toList) :=
  ⟨by decide, (c6_parsing_policy ("A|B|C".toList) (by decide)).1⟩

/-- Counterexample to claim C6 as stated: the line `"A|B"|C|D` splits on the
pipe character into four fields, so the claim requires an explicit-mode rule
(mode `D`, source `"A`); but `csv.reader` treats `"A|B"` as one quoted
field, and the code loads a three-field legacy rule with source `A|B` and
mode `move`. -/
theorem c6_counterexample :
    loadRules (some ("\"A|B\"|C|D".toList))
      = [⟨1, "A|B".toList, "C".toList, "D".toList, "move".toList⟩] ∧
    (splitOnChar '|' ("\"A|B\"|C|D".toList)).length = 4 ∧
    ("move".toList : List Char) ≠ "D".toList := by
  refine ⟨by decide, by decide, by decide⟩

theorem parseRecord_source_ne_nil {i : Nat} {row : List (List Char)} {r : Rule}
    (h : parseRecord i row = some r) : r.source ≠ [] := by
  match row with
  | [] => exact nomatch h
  | f0 :: rest =>
    simp only [parseRecord] at h
    split at h
    · exact nomatch h
    · next hg =>
      have hg2 : pyStrip f0 ≠ [] := fun he => hg (by simp [he])
      split at h
      · cases h
        exact hg2
      · cases h
        exact hg2
      · exact nomatch h

/-- Claim C7 as amended: every rule produced by `load_rules` has a non-empty
source (the guard skips records whose stripped first field is empty), but
nothing guards the target: it may be empty. -/
theorem c7_loaded_source_nonempty (content : Option (List Char)) :
    ∀ r ∈ loadRules content, r.source ≠ [] := by
  intro r hr
  match content with
  | none => simp [loadRules] at hr
  | some c =>
    rw [loadRules] at hr
    obtain ⟨p, _, hp⟩ := List.mem_filterMap.mp hr
    exact parseRecord_source_ne_nil hp

/-- Witness for `c7_loaded_source_nonempty` at the one-line file `a|b|c`. -/
theorem c7_loaded_source_nonempty_witness :
    (⟨1, "a".toList, "b".toList, "c".toList, "move".toList⟩ : Rule).source ≠ [] :=
  c7_loaded_source_nonempty (some ("a|b|c".toList)) _ (by decide)

/-- Counterexample to claim C7 as stated: the line `a||c` has an empty
second field, so the loaded rule's target is the empty string. -/
theorem c7_counterexample :
    (loadRules (some ("a||c".toList))).map Rule.target = [[]] ∧
    ¬ (∀ r ∈ loadRules (some ("a||c".toList)), r.target ≠ []) := by
  refine ⟨by decide, by decide⟩

/-! ## LogMonitor.get_recent_logs (src/app.py:317-331) -/

/-- Python `f.readlines()` on text-mode content: the physical lines, each
keeping its terminator; a final unterminated line is kept too. -/
def readlinesKeep : List Char → List (List Char)
  | [] => []
  | c :: cs =>
    if c = '\n' then ['\n'] :: readlinesKeep cs
    else
      match readlinesKeep cs with
      | [] => [[c]]
      | l :: ls => (c :: l) :: ls

/-- Python slicing `l[-n:]` for a non-negative count: all of `l` when
`n = 0`, otherwise the last `n` elements. -/
def pySliceLast {α : Type} (l : List α) (n : ℕ) : List α :=
  if n = 0 then l else l.drop (l.length - n)

/-- `LogMonitor.get_recent_logs` (src/app.py:317-331): the resolved log
file is modelled by its optional content; a missing file (or a read error)
yields `[]`, otherwise `[line.strip() for line in all_lines[-lines:]]`. -/
def getRecentLogs (content : Option (List Char)) (lines : ℕ) : List (List Char) :=
  match content with
  | none => []
  | some c => (pySliceLast (readlinesKeep (univNewlines c)) lines).map pyStrip

/-- Claim C8 as amended: for `n ≥ 1` the tail returns the last `n` physical
lines most-recent-last, but each line is `strip`ped of leading and trailing
whitespace rather than verbatim; for `n = 0` Python's `[-0:]` slice returns
every line; a missing file yields the empty sequence, and the model is a
total function (the code catches I/O errors and returns `[]`). -/
theorem c8_tail (c : List Char) (n : ℕ) :
    getRecentLogs none n = [] ∧
    (1 ≤ n → getRecentLogs (some c) n
      = ((readlinesKeep (univNewlines c)).drop
          ((readlinesKeep (univNewlines c)).length - n)).map pyStrip) ∧
    getRecentLogs (some c) 0 = (readlinesKeep (univNewlines c)).map pyStrip := by
  refine ⟨rfl, ?_, ?_⟩
  · intro hn
    have hne : n ≠ 0 := by omega
    simp [getRecentLogs, pySliceLast, hne]
  · simp [getRecentLogs, pySliceLast]

/-- Witness for `c8_tail` at content ` a\n` and `n = 5`. -/
theorem c8_tail_witness :
    (1 : ℕ) ≤ 5 ∧ getRecentLogs (some (" a\n".toList)) 5
      = ((readlinesKeep (univNewlines (" a\n".toList))).drop
          ((readlinesKeep (univNewlines (" a\n".toList))).length - 5)).map pyStrip :=
  ⟨by decide, (c8_tail (" a\n".toList) 5).2.1 (by decide)⟩

/-- Counterexample to claim C8 as stated: the file content ` a\n` has a
single line whose verbatim text is ` a`, but the code strips each returned
line and yields `a`. -/
theorem c8_counterexample :
    getRecentLogs (some (" a\n".toList)) 5 = ["a".toList] ∧
    ("a".toList : List Char) ≠ " a".toList := by
  refine ⟨by decide, by decide⟩

/-! ## RulesManager.save_rules (src/app.py:241-283) -/

theorem readlinesKeep_flatten : ∀ c : List Char, (readlinesKeep c).flatten = c := by
  intro c
  induction c with
  | nil => rfl
  | cons c cs ih =>
    simp only [readlinesKeep]
    by_cases h : c = '\n'
    · simp [h, ih]
    · simp only [h, if_false]
      cases hr : readlinesKeep cs with
      | nil =>
        rw [hr] at ih
        simp at ih
        simp [ih]
      | cons l ls =>
        rw [hr] at ih
        simp only [List.flatten_cons] at ih ⊢
        simp [← ih]

theorem readlinesKeep_ne_nil (c : Char) (cs : List Char) :
    readlinesKeep (c :: cs) ≠ [] := by
  simp only [readlinesKeep]
  by_cases h : c = '\n'
  · simp [h]
  · simp only [h, if_false]
    cases readlinesKeep cs <;> simp

theorem univNewlines_ne_nil : ∀ c : List Char, c ≠ [] → univNewlines c ≠ [] := by
  intro c hc
  induction c using univNewlines.induct with
  | case1 => exact absurd rfl hc
  | case2 rest ih => simp [univNewlines]
  | case3 rest h ih => simp [univNewlines]
  | case4 c rest h h2 ih => simp [univNewlines]

theorem univNewlines_id : ∀ c : List Char, ('\r' : Char) ∉ c → univNewlines c = c := by
  intro c hc
  induction c using univNewlines.induct with
  | case1 => rfl
  | case2 rest ih => exact absurd (List.mem_cons_self _ _) hc
  | case3 rest h ih => exact absurd (List.mem_cons_self _ _) hc
  | case4 c rest h h2 ih =>
    have : ('\r' : Char) ∉ rest := fun hm => hc (List.mem_cons_of_mem _ hm)
    simp [univNewlines, ih this]

/-- The fixed header comment block written by `save_rules`
(src/app.py:260-263). -/
def rulesHeader : List Char :=
  ("# Unified Music Storage Rules\n# SOURCE_PATH|TARGET|DEST_SUBPATH|MODE\n"
    ++ "# TARGET: SSD, NAS, or Local\n# MODE: move (migrate+symlink), copy (backup only)\n"
    ++ "\n").toList

/-- One written rule line (src/app.py:277). -/
def ruleLine (r : Rule) : List Char :=
  r.source ++ ['|'] ++ r.target ++ ['|'] ++ r.subpath ++ ['|'] ++ r.mode ++ ['\n']

/-- Insert a rule under its category, keeping Python dict insertion order
(src/app.py:266-271). -/
def insertCat : List (String × List Rule) → String → Rule → List (String × List Rule)
  | [], cat, r => [(cat, [r])]
  | (c, rs) :: t, cat, r =>
    if c = cat then (c, rs ++ [r]) :: t else (c, rs) :: insertCat t cat r

/-- Group the rules by category in first-seen category order. -/
def groupByCategory (rules : List Rule) : List (String × List Rule) :=
  rules.foldl (fun acc r => insertCat acc (categorizeRule r) r) []

/-- One category section: a `# <Category>` comment line, the rule lines,
then a blank separator line (src/app.py:274-278). -/
def sectionText (cat : String) (rs : List Rule) : List Char :=
  '#' :: ' ' :: cat.toList ++ ['\n'] ++ rs.flatMap ruleLine ++ ['\n']

/-- The primary file content written by `save_rules`. -/
def rulesFileContent (rules : List Rule) : List Char :=
  rulesHeader ++ ((groupByCategory rules).map (fun p => sectionText p.1 p.2)).flatten

/-- `RulesManager.save_rules` (src/app.py:241-283): read the prior content
in text mode as lines, write the lines verbatim to one fresh
timestamp-suffixed backup file when the line list is non-empty, then
rewrite the primary file from scratch. The result pairs the backup content
written (`none` when no backup file is created) with the new primary
content. -/
def saveBackup : Option (List Char) → Option (List Char)
  | none => none
  | some c =>
    if readlinesKeep (univNewlines c) = [] then none
    else some (readlinesKeep (univNewlines c)).flatten

def saveRules (prior : Option (List Char)) (rules : List Rule) :
    Option (List Char) × List Char :=
  (saveBackup prior, rulesFileContent rules)

/-- Claim C2 as amended: after a successful save exactly one new backup
exists iff the prior file existed and was non-empty; its content is the
prior file's text-mode content — the prior bytes exactly whenever they
contain no carriage return (text mode normalizes `\r\n`/`\r` to `\n`).
When the prior file was missing **or existed empty**, no backup is created
(`if original_lines:` is false for both). -/
theorem c2_backup_before_write (prior : List Char) (rules : List Rule)
    (h : prior ≠ []) :
    (saveRules (some prior) rules).1 = some (univNewlines prior) ∧
    (('\r' : Char) ∉ prior → (saveRules (some prior) rules).1 = some prior) ∧
    (saveRules none rules).1 = none ∧
    (saveRules (some []) rules).1 = none := by
  have h1 : (saveRules (some prior) rules).1 = some (univNewlines prior) := by
    have hu := univNewlines_ne_nil prior h
    have hne : readlinesKeep (univNewlines prior) ≠ [] := by
      cases hv : univNewlines prior with
      | nil => exact absurd hv hu
      | cons c cs => exact readlinesKeep_ne_nil c cs
    show saveBackup (some prior) = some (univNewlines prior)
    rw [saveBackup, if_neg hne, readlinesKeep_flatten]
  refine ⟨h1, fun hr => ?_, rfl, rfl⟩
  rw [h1, univNewlines_id prior hr]

/-- Witness for `c2_backup_before_write` at prior content `x\n`. -/
theorem c2_backup_before_write_witness :
    ("x\n".toList ≠ ([] : List Char)) ∧
    (saveRules (some ("x\n".toList)) []).1 = some (univNewlines ("x\n".toList)) :=
  ⟨by decide, (c2_backup_before_write ("x\n".toList) [] (by decide)).1⟩

/-- Counterexample to claim C2 as stated: the prior file exists with empty
content, yet `save_rules` creates no backup (`original_lines` is the empty
list, so the backup write is skipped), while the claim requires exactly one
new backup holding the prior (empty) bytes. -/
theorem c2_counterexample :
    (saveRules (some []) []).1 = none ∧ (none : Option (List Char)) ≠ some [] := by
  refine ⟨rfl, by simp⟩

/-! ## Round trip (claim C3): save then load --

The proof decomposes the saved file into its physical lines, shows the
CSV parse of the (quote-free) saved content is line/pipe splitting, and
tracks which lines parse to rules. -/

/-- A field that survives the write/parse cycle unchanged: no delimiter, no
line terminator (either kind), no quote character, invariant under
`strip`. -/
def goodField (f : List Char) : Prop :=
  ('|' : Char) ∉ f ∧ ('\n' : Char) ∉ f ∧ ('\r' : Char) ∉ f ∧ ('"' : Char) ∉ f ∧
    pyStrip f = f

/-- A rule whose four fields are good, with a non-empty source that does not
begin with `#`. -/
def goodRule (r : Rule) : Prop :=
  goodField r.source ∧ goodField r.target ∧ goodField r.subpath ∧ goodField r.mode ∧
    r.source ≠ [] ∧ r.source.head? ≠ some '#'

instance (f : List Char) : Decidable (goodField f) := by
  unfold goodField
  infer_instance

instance (r : Rule) : Decidable (goodRule r) := by
  unfold goodRule
  infer_instance

/-- Join lines into a `\n`-terminated text. -/
def joinLines (L : List (List Char)) : List Char :=
  (L.map (fun l => l ++ ['\n'])).flatten

theorem joinLines_append (A B : List (List Char)) :
    joinLines (A ++ B) = joinLines A ++ joinLines B := by
  simp [joinLines]

theorem specLines_append (l b : List Char) (hl : ('\n' : Char) ∉ l) :
    specLines (l ++ '\n' :: b) = l :: specLines b := by
  induction l with
  | nil => simp [specLines_cons_newline]
  | cons c t ih =>
    have hc : c ≠ '\n' := fun e => hl (e ▸ List.mem_cons_self c t)
    have ht : ('\n' : Char) ∉ t := fun hm => hl (List.mem_cons_of_mem _ hm)
    rw [List.cons_append, specLines_cons_other c _ hc, ih ht]

theorem specLines_joinLines (L : List (List Char)) (h : ∀ l ∈ L, ('\n' : Char) ∉ l) :
    specLines (joinLines L) = L := by
  induction L with
  | nil => rfl
  | cons l ls ih =>
    have h1 : joinLines (l :: ls) = l ++ '\n' :: joinLines ls := by
      simp [joinLines]
    rw [h1, specLines_append l _ (h l (List.mem_cons_self l ls)),
      ih (fun x hx => h x (List.mem_cons_of_mem _ hx))]

theorem mem_joinLines {a : Char} {L : List (List Char)} (h : a ∈ joinLines L) :
    a = '\n' ∨ ∃ l ∈ L, a ∈ l := by
  simp only [joinLines, List.mem_flatten, List.mem_map] at h
  obtain ⟨x, ⟨l, hl, rfl⟩, hx⟩ := h
  rcases List.mem_append.mp hx with h1 | h1
  · exact Or.inr ⟨l, hl, h1⟩
  · simp at h1
    exact Or.inl h1

theorem splitOnChar_no_sep (sep : Char) : ∀ (a : List Char), sep ∉ a →
    splitOnChar sep a = [a] := by
  intro a ha
  induction a with
  | nil => rfl
  | cons c t ih =>
    have hc : c ≠ sep := fun e => ha (e ▸ List.mem_cons_self c t)
    have ht : sep ∉ t := fun hm => ha (List.mem_cons_of_mem _ hm)
    rw [splitOnChar_cons_other sep c t hc, ih ht]

theorem splitOnChar_append_sep (sep : Char) : ∀ (a rest : List Char), sep ∉ a →
    splitOnChar sep (a ++ sep :: rest) = a :: splitOnChar sep rest := by
  intro a rest ha
  induction a with
  | nil => simp [splitOnChar_cons_sep]
  | cons c t ih =>
    have hc : c ≠ sep := fun e => ha (e ▸ List.mem_cons_self c t)
    have ht : sep ∉ t := fun hm => ha (List.mem_cons_of_mem _ hm)
    rw [List.cons_append, splitOnChar_cons_other sep c _ hc, ih ht]

/-- The pipe-joined body of one rule line, without the terminator. -/
def ruleBody (r : Rule) : List Char :=
  r.source ++ ['|'] ++ r.target ++ ['|'] ++ r.subpath ++ ['|'] ++ r.mode

theorem ruleLine_eq (r : Rule) : ruleLine r = ruleBody r ++ ['\n'] := by
  simp [ruleLine, ruleBody]

theorem specFields_ruleBody (r : Rule) (hr : goodRule r) :
    specFields (ruleBody r) = [r.source, r.target, r.subpath, r.mode] := by
  obtain ⟨hs, ht, hsub, hm, hne, _⟩ := hr
  unfold specFields ruleBody
  rw [if_neg ?hne]
  case hne =>
    cases hsrc : r.source with
    | nil => exact absurd hsrc hne
    | cons a b => simp [hsrc]
  rw [show r.source ++ ['|'] ++ r.target ++ ['|'] ++ r.subpath ++ ['|'] ++ r.mode
      = r.source ++ '|' :: (r.target ++ '|' :: (r.subpath ++ '|' :: r.mode)) by simp]
  rw [splitOnChar_append_sep '|' _ _ hs.1, splitOnChar_append_sep '|' _ _ ht.1,
    splitOnChar_append_sep '|' _ _ hsub.1, splitOnChar_no_sep '|' _ hm.1]

theorem dropWhile_append_over (p : Char → Bool) : ∀ (a b : List Char),
    List.dropWhile p (a ++ b)
      = if List.dropWhile p a = [] then List.dropWhile p b
        else List.dropWhile p a ++ b := by
  intro a b
  induction a with
  | nil => simp
  | cons c t ih =>
    by_cases h : p c
    · simp [List.dropWhile_cons, h, ih]
    · simp [List.dropWhile_cons, h]

theorem pyStrip_head_cons (c : Char) (f : List Char) (hc : pyIsSpace c = false) :
    (pyStrip (c :: f)).head? = some c := by
  unfold pyStrip
  rw [List.dropWhile_cons, if_neg (by simp [hc]), List.reverse_cons, dropWhile_append_over]
  by_cases hd : List.dropWhile pyIsSpace f.reverse = []
  · simp [hd, List.dropWhile_cons, hc]
  · simp [hd, List.reverse_append]

theorem parseRecord_skip_comment (i : ℕ) (l : List Char) (h : l.head? = some '#') :
    parseRecord i (specFields l) = none := by
  cases l with
  | nil => exact nomatch h
  | cons c rest =>
    have hc : c = '#' := by simpa using h
    subst hc
    unfold specFields
    rw [if_neg (by simp)]
    rw [splitOnChar_cons_other '|' '#' rest (by decide)]
    cases hsp : splitOnChar '|' rest with
    | nil => exact absurd hsp (splitOnChar_ne_nil '|' rest)
    | cons f fs =>
      simp only [parseRecord]
      rw [if_pos ?hpos]
      case hpos =>
        rw [pyStrip_head_cons '#' f (by decide)]
        simp

theorem parseRecord_ruleRow (i : ℕ) (r : Rule) (hr : goodRule r) :
    parseRecord i [r.source, r.target, r.subpath, r.mode]
      = some ⟨i, r.source, r.target, r.subpath, r.mode⟩ := by
  obtain ⟨hs, ht, hsub, hm, hne, hhash⟩ := hr
  simp only [parseRecord, hs.2.2.2.2, ht.2.2.2.2, hsub.2.2.2.2, hm.2.2.2.2]
  rw [if_neg ?hneg]
  case hneg =>
    simp [hhash, List.isEmpty_eq_true, hne]

theorem parseRecord_tuple (i j : ℕ) (row : List (List Char)) :
    (parseRecord i row).map Rule.tuple = (parseRecord j row).map Rule.tuple := by
  match row with
  | [] => rfl
  | [f0] =>
    simp only [parseRecord]
  | [f0, b] =>
    simp only [parseRecord]
  | [f0, b, c] =>
    simp only [parseRecord]
    split_ifs <;> rfl
  | f0 :: b :: c :: d :: t =>
    simp only [parseRecord]
    split_ifs <;> rfl

theorem filterMap_enumFrom_tuple (recs : List (List (List Char))) : ∀ k : ℕ,
    ((recs.enumFrom k).filterMap (fun p => parseRecord (p.1 + 1) p.2)).map Rule.tuple
      = recs.filterMap (fun row => (parseRecord 1 row).map Rule.tuple) := by
  induction recs with
  | nil => intro k; rfl
  | cons row t ih =>
    intro k
    simp only [List.enumFrom_cons, List.filterMap_cons]
    have hrow := parseRecord_tuple (k + 1) 1 row
    cases h : parseRecord (k + 1) row with
    | none =>
      rw [h] at hrow
      simp only [Option.map_none'] at hrow
      rw [← hrow]
      exact ih (k + 1)
    | some r =>
      rw [h] at hrow
      simp only [Option.map_some'] at hrow
      simp only [List.map_cons, ← hrow, ih (k + 1)]

theorem loadRules_tuples (c : List Char) :
    (loadRules (some c)).map Rule.tuple
      = (csvParse (univNewlines c)).filterMap
          (fun row => (parseRecord 1 row).map Rule.tuple) := by
  simp only [loadRules]
  exact filterMap_enumFrom_tuple (csvParse (univNewlines c)) 0

/-- The nine category labels. -/
def categoryNames : List String :=
  ["Native Instruments", "UVI Products", "Arturia", "Logic Pro", "Sample Libraries",
    "Projects", "System Content", "User Settings", "Other"]

theorem firstMatch_mem (s : List Char) : ∀ table : List (List (List Char) × String),
    firstMatchCategory s table ∈ table.map Prod.snd ++ ["Other"] := by
  intro table
  induction table with
  | nil => simp [firstMatchCategory]
  | cons p t ih =>
    rcases p with ⟨needles, cat⟩
    simp only [firstMatchCategory]
    by_cases h : needles.any (fun n => strContains s n) = true
    · simp [h]
    · simp only [h, if_false, List.map_cons, List.cons_append, List.mem_cons]
      exact Or.inr ih

theorem categorizeRule_mem_names (r : Rule) : categorizeRule r ∈ categoryNames := by
  have h2 : categoryTable.map Prod.snd ++ ["Other"] = categoryNames := by decide
  rw [categorizeRule_eq_firstMatch]
  exact h2 ▸ firstMatch_mem (pyLower r.source) categoryTable

theorem mem_categoryNames_chars {s : String} (h : s ∈ categoryNames) :
    ('"' : Char) ∉ s.toList ∧ ('\r' : Char) ∉ s.toList ∧ ('\n' : Char) ∉ s.toList := by
  fin_cases h <;> decide

theorem mem_insertCat {acc : List (String × List Rule)} {cat : String} {r : Rule}
    (p : String × List Rule) :
    p ∈ insertCat acc cat r →
      (p.1 = cat ∨ ∃ q ∈ acc, p.1 = q.1) ∧
      (∀ x ∈ p.2, x = r ∨ ∃ q ∈ acc, x ∈ q.2) := by
  induction acc with
  | nil =>
    intro hp
    simp only [insertCat, List.mem_singleton] at hp
    subst hp
    refine ⟨Or.inl rfl, fun x hx => ?_⟩
    simp only [List.mem_singleton] at hx
    exact Or.inl hx
  | cons q t ih =>
    rcases q with ⟨c, rs⟩
    intro hp
    simp only [insertCat] at hp
    by_cases h : c = cat
    · rw [if_pos h] at hp
      rcases List.mem_cons.mp hp with rfl | hp2
      · refine ⟨Or.inl h, fun x hx => ?_⟩
        rcases List.mem_append.mp hx with h1 | h1
        · exact Or.inr ⟨(c, rs), List.mem_cons_self _ _, h1⟩
        · simp only [List.mem_singleton] at h1
          exact Or.inl h1
      · refine ⟨Or.inr ⟨p, List.mem_cons_of_mem _ hp2, rfl⟩,
          fun x hx => Or.inr ⟨p, List.mem_cons_of_mem _ hp2, hx⟩⟩
    · rw [if_neg h] at hp
      rcases List.mem_cons.mp hp with rfl | hp2
      · exact ⟨Or.inr ⟨(c, rs), List.mem_cons_self _ _, rfl⟩,
          fun x hx => Or.inr ⟨(c, rs), List.mem_cons_self _ _, hx⟩⟩
      · obtain ⟨h1, h2⟩ := ih hp2
        refine ⟨?_, fun x hx => ?_⟩
        · rcases h1 with h1 | ⟨q', hq', he⟩
          · exact Or.inl h1
          · exact Or.inr ⟨q', List.mem_cons_of_mem _ hq', he⟩
        · rcases h2 x hx with h3 | ⟨q', hq', he⟩
          · exact Or.inl h3
          · exact Or.inr ⟨q', List.mem_cons_of_mem _ hq', he⟩

theorem groupBy_provenance (rules : List Rule) :
    ∀ p ∈ groupByCategory rules,
      (∃ r ∈ rules, p.1 = categorizeRule r) ∧ (∀ x ∈ p.2, x ∈ rules) := by
  suffices h : ∀ (rs : List Rule) (acc : List (String × List Rule)),
      ∀ p ∈ rs.foldl (fun a r => insertCat a (categorizeRule r) r) acc,
        ((∃ r ∈ rs, p.1 = categorizeRule r) ∨ ∃ q ∈ acc, p.1 = q.1) ∧
        (∀ x ∈ p.2, x ∈ rs ∨ ∃ q ∈ acc, x ∈ q.2) by
    intro p hp
    obtain ⟨h1, h2⟩ := h rules [] p hp
    constructor
    · rcases h1 with h1 | ⟨q, hq, _⟩
      · exact h1
      · exact absurd hq (List.not_mem_nil q)
    · intro x hx
      rcases h2 x hx with h3 | ⟨q, hq, _⟩
      · exact h3
      · exact absurd hq (List.not_mem_nil q)
  intro rs
  induction rs with
  | nil =>
    intro acc p hp
    exact ⟨Or.inr ⟨p, hp, rfl⟩, fun x hx => Or.inr ⟨p, hp, hx⟩⟩
  | cons r t ih =>
    intro acc p hp
    obtain ⟨h1, h2⟩ := ih (insertCat acc (categorizeRule r) r) p hp
    constructor
    · rcases h1 with ⟨r', hr', he⟩ | ⟨q, hq, he⟩
      · exact Or.inl ⟨r', List.mem_cons_of_mem _ hr', he⟩
      · rcases (mem_insertCat q hq).1 with h3 | ⟨q', hq', he'⟩
        · exact Or.inl ⟨r, List.mem_cons_self _ _, he.trans h3⟩
        · exact Or.inr ⟨q', hq', he.trans he'⟩
    · intro x hx
      rcases h2 x hx with h3 | ⟨q, hq, hxq⟩
      · exact Or.inl (List.mem_cons_of_mem _ h3)
      · rcases (mem_insertCat q hq).2 x hxq with rfl | ⟨q', hq', hxq'⟩
        · exact Or.inl (List.mem_cons_self _ _)
        · exact Or.inr ⟨q', hq', hxq'⟩

theorem insertCat_flatMap_perm (acc : List (String × List Rule)) (cat : String) (r : Rule) :
    List.Perm ((insertCat acc cat r).flatMap (fun p => p.2))
      ((acc.flatMap (fun p => p.2)) ++ [r]) := by
  induction acc with
  | nil => simp [insertCat]
  | cons q t ih =>
    rcases q with ⟨c, rs⟩
    simp only [insertCat]
    by_cases h : c = cat
    · rw [if_pos h]
      simp only [List.flatMap_cons, List.append_assoc]
      exact List.Perm.append_left rs
        (by simpa using @List.perm_append_comm _ [r] (t.flatMap (fun p => p.2)))
    · rw [if_neg h]
      simp only [List.flatMap_cons, List.append_assoc]
      exact List.Perm.append_left rs ih

theorem groupBy_flatMap_perm (rules : List Rule) :
    List.Perm ((groupByCategory rules).flatMap (fun p => p.2)) rules := by
  suffices h : ∀ (rs : List Rule) (acc : List (String × List Rule)),
      List.Perm ((rs.foldl (fun a r => insertCat a (categorizeRule r) r) acc).flatMap
          (fun p => p.2))
        ((acc.flatMap (fun p => p.2)) ++ rs) by
    simpa using h rules []
  intro rs
  induction rs with
  | nil => intro acc; simp
  | cons r t ih =>
    intro acc
    have step := ih (insertCat acc (categorizeRule r) r)
    refine step.trans ?_
    have h1 := insertCat_flatMap_perm acc (categorizeRule r) r
    have h2 := h1.append_right t
    refine h2.trans ?_
    simp

/-- The four header comment lines and the blank line, as written. -/
def headerLines : List (List Char) :=
  ["# Unified Music Storage Rules".toList, "# SOURCE_PATH|TARGET|DEST_SUBPATH|MODE".toList,
    "# TARGET: SSD, NAS, or Local".toList,
    "# MODE: move (migrate+symlink), copy (backup only)".toList, []]

/-- The physical lines of one category section. -/
def sectionLines (p : String × List Rule) : List (List Char) :=
  ('#' :: ' ' :: p.1.toList) :: (p.2.map ruleBody ++ [[]])

/-- All physical lines of the saved file. -/
def allLines (rules : List Rule) : List (List Char) :=
  headerLines ++ (groupByCategory rules).flatMap sectionLines

theorem rulesHeader_eq : rulesHeader = joinLines headerLines := by decide

theorem joinLines_cons (l : List Char) (L : List (List Char)) :
    joinLines (l :: L) = l ++ '\n' :: joinLines L := by
  simp [joinLines]

theorem joinLines_map_ruleBody (rs : List Rule) :
    joinLines (rs.map ruleBody) = rs.flatMap ruleLine := by
  induction rs with
  | nil => rfl
  | cons r t ih =>
    rw [List.map_cons, joinLines_cons, ih, List.flatMap_cons, ruleLine_eq, List.append_assoc]
    rfl

theorem sectionText_eq (p : String × List Rule) :
    sectionText p.1 p.2 = joinLines (sectionLines p) := by
  rcases p with ⟨cat, rs⟩
  show sectionText cat rs = joinLines (sectionLines (cat, rs))
  unfold sectionText sectionLines
  rw [joinLines_cons, joinLines_append, joinLines_map_ruleBody]
  simp [joinLines, List.append_assoc]

theorem rulesFileContent_eq (rules : List Rule) :
    rulesFileContent rules = joinLines (allLines rules) := by
  unfold rulesFileContent allLines
  rw [joinLines_append, ← rulesHeader_eq]
  congr 1
  generalize groupByCategory rules = secs
  induction secs with
  | nil => rfl
  | cons p t ih =>
    simp only [List.map_cons, List.flatten_cons, List.flatMap_cons, joinLines_append]
    rw [sectionText_eq, ih]

theorem mem_ruleBody {a : Char} {r : Rule} (hm : a ∈ ruleBody r) :
    a ∈ r.source ∨ a ∈ r.target ∨ a ∈ r.subpath ∨ a ∈ r.mode ∨ a = '|' := by
  simp only [ruleBody, List.mem_append, List.mem_singleton] at hm
  tauto

theorem ruleBody_chars {r : Rule} (hg : goodRule r) :
    ('\n' : Char) ∉ ruleBody r ∧ ('"' : Char) ∉ ruleBody r ∧ ('\r' : Char) ∉ ruleBody r := by
  obtain ⟨hs, ht, hsub, hm, _, _⟩ := hg
  refine ⟨fun hmem => ?_, fun hmem => ?_, fun hmem => ?_⟩
  · rcases mem_ruleBody hmem with h1 | h1 | h1 | h1 | h1
    · exact hs.2.1 h1
    · exact ht.2.1 h1
    · exact hsub.2.1 h1
    · exact hm.2.1 h1
    · exact absurd h1 (by decide)
  · rcases mem_ruleBody hmem with h1 | h1 | h1 | h1 | h1
    · exact hs.2.2.2.1 h1
    · exact ht.2.2.2.1 h1
    · exact hsub.2.2.2.1 h1
    · exact hm.2.2.2.1 h1
    · exact absurd h1 (by decide)
  · rcases mem_ruleBody hmem with h1 | h1 | h1 | h1 | h1
    · exact hs.2.2.1 h1
    · exact ht.2.2.1 h1
    · exact hsub.2.2.1 h1
    · exact hm.2.2.1 h1
    · exact absurd h1 (by decide)

theorem allLines_chars (rules : List Rule) (h : ∀ r ∈ rules, goodRule r) :
    ∀ l ∈ allLines rules,
      ('\n' : Char) ∉ l ∧ ('"' : Char) ∉ l ∧ ('\r' : Char) ∉ l := by
  intro l hl
  rcases List.mem_append.mp hl with hh | hb
  · fin_cases hh <;> exact ⟨by decide, by decide, by decide⟩
  · obtain ⟨p, hp, hlp⟩ := List.mem_flatMap.mp hb
    obtain ⟨⟨r0, _, hcat⟩, hsub⟩ := groupBy_provenance rules p hp
    rcases List.mem_cons.mp hlp with rfl | h2
    · obtain ⟨q1, q2, q3⟩ := mem_categoryNames_chars (hcat ▸ categorizeRule_mem_names r0)
      refine ⟨?_, ?_, ?_⟩ <;> simp only [List.mem_cons, not_or]
      · exact ⟨by decide, by decide, q3⟩
      · exact ⟨by decide, by decide, q1⟩
      · exact ⟨by decide, by decide, q2⟩
    · rcases List.mem_append.mp h2 with h3 | h3
      · obtain ⟨r1, hr1, rfl⟩ := List.mem_map.mp h3
        exact ruleBody_chars (h r1 (hsub r1 hr1))
      · simp only [List.mem_singleton] at h3
        subst h3
        exact ⟨by simp, by simp, by simp⟩

theorem filterMap_ruleBodies (rs : List Rule) (h : ∀ r ∈ rs, goodRule r) :
    (rs.map ruleBody).filterMap (fun l => (parseRecord 1 (specFields l)).map Rule.tuple)
      = rs.map Rule.tuple := by
  induction rs with
  | nil => rfl
  | cons r t ih =>
    have hr := h r (List.mem_cons_self _ _)
    simp only [List.map_cons, List.filterMap_cons, specFields_ruleBody r hr,
      parseRecord_ruleRow 1 r hr, Option.map_some']
    rw [ih (fun x hx => h x (List.mem_cons_of_mem _ hx))]
    rfl

theorem filterMap_allLines (rules : List Rule) (h : ∀ r ∈ rules, goodRule r) :
    (allLines rules).filterMap (fun l => (parseRecord 1 (specFields l)).map Rule.tuple)
      = (groupByCategory rules).flatMap (fun p => p.2.map Rule.tuple) := by
  unfold allLines
  rw [List.filterMap_append]
  have hh : headerLines.filterMap
      (fun l => (parseRecord 1 (specFields l)).map Rule.tuple) = [] := by decide
  rw [hh, List.nil_append]
  have hgp := groupBy_provenance rules
  generalize groupByCategory rules = secs at hgp ⊢
  induction secs with
  | nil => rfl
  | cons p t ih =>
    have hsub := (hgp p (List.mem_cons_self _ _)).2
    simp only [List.flatMap_cons, List.filterMap_append]
    have hsec : (sectionLines p).filterMap
        (fun l => (parseRecord 1 (specFields l)).map Rule.tuple) = p.2.map Rule.tuple := by
      simp only [sectionLines, List.filterMap_cons,
        parseRecord_skip_comment 1 ('#' :: ' ' :: p.1.toList) rfl, Option.map_none']
      rw [List.filterMap_append, filterMap_ruleBodies p.2 (fun x hx => h x (hsub x hx)),
        show List.filterMap (fun l => (parseRecord 1 (specFields l)).map Rule.tuple) [[]]
          = [] from rfl, List.append_nil]
    rw [hsec, ih (fun q hq => hgp q (List.mem_cons_of_mem _ hq))]

/-- Claim C3 as amended: saving a rule sequence and loading it back yields
the same multiset of `(source, target, subpath, mode)` tuples, provided
every rule's four fields contain no pipe, no newline or carriage return and
no double quote and are invariant under `strip`, and every source is
non-empty and does not start with `#`. (Line numbers and category grouping
may differ; the permutation reflects the category regrouping on save.) -/
theorem c3_round_trip (prior : Option (List Char)) (rules : List Rule)
    (h : ∀ r ∈ rules, goodRule r) :
    List.Perm ((loadRules (some ((saveRules prior rules).2))).map Rule.tuple)
      (rules.map Rule.tuple) := by
  have hcontent : (saveRules prior rules).2 = rulesFileContent rules := rfl
  rw [hcontent]
  have hlines := allLines_chars rules h
  have hnl : ∀ l ∈ allLines rules, ('\n' : Char) ∉ l := fun l hl => (hlines l hl).1
  have hq : ('"' : Char) ∉ rulesFileContent rules := by
    rw [rulesFileContent_eq]
    intro hm
    rcases mem_joinLines hm with he | ⟨l, hl, hml⟩
    · exact absurd he (by decide)
    · exact (hlines l hl).2.1 hml
  have hcr : ('\r' : Char) ∉ rulesFileContent rules := by
    rw [rulesFileContent_eq]
    intro hm
    rcases mem_joinLines hm with he | ⟨l, hl, hml⟩
    · exact absurd he (by decide)
    · exact (hlines l hl).2.2 hml
  rw [loadRules_tuples, univNewlines_id _ hcr, csvParse_noquote _ hq, rulesFileContent_eq,
    specLines_joinLines _ hnl, List.filterMap_map]
  have hfun : ((fun row => (parseRecord 1 row).map Rule.tuple) ∘ specFields)
      = (fun l => (parseRecord 1 (specFields l)).map Rule.tuple) := rfl
  rw [hfun, filterMap_allLines rules h]
  have hperm := (groupBy_flatMap_perm rules).map Rule.tuple
  rw [List.map_flatMap] at hperm
  exact hperm

/-- Witness for `c3_round_trip` at the single good rule `a|SSD|sub|move`. -/
theorem c3_round_trip_witness :
    (∀ r ∈ [(⟨0, "a".toList, "SSD".toList, "sub".toList, "move".toList⟩ : Rule)], goodRule r) ∧
    List.Perm
      ((loadRules (some ((saveRules none
          [⟨0, "a".toList, "SSD".toList, "sub".toList, "move".toList⟩]).2))).map Rule.tuple)
      ([(⟨0, "a".toList, "SSD".toList, "sub".toList, "move".toList⟩ : Rule)].map Rule.tuple) :=
  ⟨by decide, c3_round_trip none _ (by decide)⟩

/-- Counterexample to claim C3 as stated: a rule whose source starts with
`#` is written as the line `#a|T|S|move`, which load skips as a comment, so
the loaded multiset of tuples is empty while the saved one is not. -/
theorem c3_counterexample :
    (loadRules (some ((saveRules none
        [⟨0, "#a".toList, "T".toList, "S".toList, "move".toList⟩]).2))).map Rule.tuple = [] ∧
    ¬ List.Perm ([] : List (List Char × List Char × List Char × List Char))
        ([(⟨0, "#a".toList, "T".toList, "S".toList, "move".toList⟩ : Rule)].map Rule.tuple) := by
  refine ⟨by decide, by decide⟩

end MSM
